import Mathlib

/-!
Verification of the Ripyl edge-detection, statistics and signal-processing
kernels (ripyl/cython/decode.pyx, ripyl/cython/util/stats.pyx,
ripyl/cython/sigproc.pyx), modelled over exact rational arithmetic.
Sample values, times and thresholds are rationals; machine floats in the
source are modelled exactly.
-/

/-- A batch of amplitude samples with timing metadata (ripyl SampleChunk). -/
structure SampleChunk where
  samples : List ℚ
  start_time : ℚ
  sample_period : ℚ
deriving DecidableEq

/-- decode.pyx: cdef int ES_START = 1000 -/
def ES_START : ℤ := 1000

/-- decode.pyx: cdef int ZONE_1_L1 = 2 (logic 1) -/
def ZONE_1_L1 : ℤ := 2

/-- decode.pyx: cdef int ZONE_2_T = 1 (transition) -/
def ZONE_2_T : ℤ := 1

/-- decode.pyx: cdef int ZONE_3_L0 = 0 (logic 0) -/
def ZONE_3_L0 : ℤ := 0

/-- Zone classification of one sample in _cy_find_edges (lines 136-141). -/
def zone3 (hyst_top hyst_bot sample : ℚ) : ℤ :=
  if hyst_top < sample then ZONE_1_L1
  else if hyst_bot < sample then ZONE_2_T
  else ZONE_3_L0

/-- decode.pyx line 142: zone_is_stable = zone == ZONE_1_L1 or zone == ZONE_3_L0 -/
def zoneIsStable (z : ℤ) : Prop := z = ZONE_1_L1 ∨ z = ZONE_3_L0

instance (z : ℤ) : Decidable (zoneIsStable z) := by
  unfold zoneIsStable; infer_instance

/-- The per-sample state-machine body of _cy_find_edges (lines 134-177).
Returns the new state, the new prev_stable, and the edges appended at this
sample (at most one, at time t, with state zone // 2). -/
def edgeStep (hyst_top hyst_bot t sample : ℚ) (state prev_stable : ℤ) :
    ℤ × ℤ × List (ℚ × ℤ) :=
  let z := zone3 hyst_top hyst_bot sample
  if state = ES_START then
    -- Stay in start until we reach one of the stable states
    (if zoneIsStable z then z else state, prev_stable, [])
  else if state = ZONE_1_L1 ∨ state = ZONE_3_L0 then
    -- last zone was a stable state
    if zoneIsStable z then
      if z ≠ state then (z, prev_stable, [(t, z / 2)]) else (state, prev_stable, [])
    else (z, state, [])
  else if state = ZONE_2_T then
    -- last zone was a transitional state (in hysteresis band)
    (z, prev_stable, if zoneIsStable z ∧ z ≠ prev_stable then [(t, z / 2)] else [])
  else (state, prev_stable, [])

/-- _cy_find_edges (decode.pyx lines 117-184): loop over one chunk, with the
sample time t advancing by sample_period each iteration.  Returns the final
state, final prev_stable and the list of edges collected. -/
def cy_find_edges (hyst_top hyst_bot : ℚ) (t sample_period : ℚ) (chunk : List ℚ)
    (state prev_stable : ℤ) : ℤ × ℤ × List (ℚ × ℤ) :=
  match chunk with
  | [] => (state, prev_stable, [])
  | sample :: rest =>
    let r1 := edgeStep hyst_top hyst_bot t sample state prev_stable
    let r2 := cy_find_edges hyst_top hyst_bot (t + sample_period) sample_period rest r1.1 r1.2.1
    (r2.1, r2.2.1, r1.2.2 ++ r2.2.2)

/-- decode.pyx line 89: thresh = (logic[1] + logic[0]) / 2.0 -/
def threshOf (logic : ℚ × ℚ) : ℚ := (logic.2 + logic.1) / 2

/-- decode.pyx line 88: span = logic[1] - logic[0] -/
def spanOf (logic : ℚ × ℚ) : ℚ := logic.2 - logic.1

/-- decode.pyx line 90: hyst_top = span * (0.5 + hysteresis / 2.0) + logic[0] -/
def hystTop (logic : ℚ × ℚ) (hysteresis : ℚ) : ℚ :=
  spanOf logic * (1/2 + hysteresis / 2) + logic.1

/-- decode.pyx line 91: hyst_bot = span * (0.5 - hysteresis / 2.0) + logic[0] -/
def hystBot (logic : ℚ × ℚ) (hysteresis : ℚ) : ℚ :=
  spanOf logic * (1/2 - hysteresis / 2) + logic.1

/-- The chunk loop of find_edges (decode.pyx lines 101-114).  While state is
still ES_START at the top of a chunk, an initial-state element is emitted from
chunk[0] compared against thresh and prev_stable is seeded, then
_cy_find_edges runs on the chunk. -/
def find_edges_go (thresh hyst_top hyst_bot : ℚ) :
    ℤ → ℤ → List SampleChunk → List (ℚ × ℤ)
  | _, _, [] => []
  | state, prev_stable, sc :: rest =>
    if state = ES_START then
      let c0 := sc.samples.headD 0
      let init : ℚ × ℤ := (sc.start_time, if thresh < c0 then 1 else 0)
      let ps1 : ℤ := if thresh < c0 then ZONE_1_L1 else ZONE_3_L0
      let r := cy_find_edges hyst_top hyst_bot sc.start_time sc.sample_period sc.samples state ps1
      init :: (r.2.2 ++ find_edges_go thresh hyst_top hyst_bot r.1 r.2.1 rest)
    else
      let r := cy_find_edges hyst_top hyst_bot sc.start_time sc.sample_period sc.samples state prev_stable
      r.2.2 ++ find_edges_go thresh hyst_top hyst_bot r.1 r.2.1 rest

/-- find_edges (decode.pyx lines 87-114).  The uninitialized C variable
prev_stable is modelled as 0; it is overwritten before first use. -/
def find_edges (sample_chunks : List SampleChunk) (logic : ℚ × ℚ) (hysteresis : ℚ) :
    List (ℚ × ℤ) :=
  find_edges_go (threshOf logic) (hystTop logic hysteresis) (hystBot logic hysteresis)
    ES_START 0 sample_chunks

/-- The per-sample times of a chunk body: t, t + p, t + 2p, ... paired with
the samples. -/
def timedSamples (t p : ℚ) : List ℚ → List (ℚ × ℚ)
  | [] => []
  | s :: rest => (t, s) :: timedSamples (t + p) p rest

/-- The timed samples of one SampleChunk. -/
def chunkTimed (sc : SampleChunk) : List (ℚ × ℚ) :=
  timedSamples sc.start_time sc.sample_period sc.samples

/-- The logical sample stream denoted by a chunk list: all (time, sample)
pairs in order. -/
def flattenTimed : List SampleChunk → List (ℚ × ℚ)
  | [] => []
  | sc :: rest => chunkTimed sc ++ flattenTimed rest

/-- Running the edge state machine over an explicit (time, sample) list;
chunk-structure-free reference form of cy_find_edges. -/
def runEdges (hyst_top hyst_bot : ℚ) : ℤ → ℤ → List (ℚ × ℚ) → ℤ × ℤ × List (ℚ × ℤ)
  | state, prev_stable, [] => (state, prev_stable, [])
  | state, prev_stable, (t, s) :: rest =>
    let r1 := edgeStep hyst_top hyst_bot t s state prev_stable
    let r2 := runEdges hyst_top hyst_bot r1.1 r1.2.1 rest
    (r2.1, r2.2.1, r1.2.2 ++ r2.2.2)

/-- Time-contiguity of a chunk list: each chunk starts where the previous one
ends. -/
def contiguousB : List SampleChunk → Bool
  | sc :: sc2 :: rest =>
    (sc2.start_time == sc.start_time + (sc.samples.length : ℚ) * sc.sample_period) &&
      contiguousB (sc2 :: rest)
  | _ => true

def contiguous (chunks : List SampleChunk) : Prop := contiguousB chunks = true

instance (chunks : List SampleChunk) : Decidable (contiguous chunks) := by
  unfold contiguous; infer_instance

/-- Zone classification of find_multi_edges (decode.pyx lines 276-280): the
first index j with sample <= thresholds[j], else the number of thresholds. -/
def multiZoneAux (sample : ℚ) : List ℚ → ℕ
  | [] => 0
  | v :: rest => if sample ≤ v then 0 else multiZoneAux sample rest + 1

/-- decode.pyx lines 212-214: centers of consecutive threshold pairs. -/
def centerThresholds : List ℚ → List ℚ
  | a :: b :: rest => (a + b) / 2 :: centerThresholds rest
  | _ => []

/-- decode.pyx lines 218 and 271: zone_offset = len(hyst_thresholds) // 4 -/
def zoneOffsetOf (hyst_thresholds : List ℚ) : ℕ := hyst_thresholds.length / 4

/-- Per-sample body of _cy_find_multi_edges (decode.pyx lines 274-305).
Even zones are stable; odd zones are transitional.  Emitted edge states are
zone // 2 - zone_offset. -/
def multiEdgeStep (hyst_thresholds : List ℚ) (zone_offset : ℤ) (t sample : ℚ)
    (state prev_stable : ℤ) : ℤ × ℤ × List (ℚ × ℤ) :=
  let z : ℤ := (multiZoneAux sample hyst_thresholds : ℤ)
  if state = ES_START then
    -- Stay in start until we reach one of the stable states
    (if z % 2 = 0 then z else state, prev_stable, [])
  else if state % 2 = 0 then
    -- last zone was a stable state
    if z % 2 = 0 then
      if z ≠ state then (z, prev_stable, [(t, z / 2 - zone_offset)])
      else (state, prev_stable, [])
    else (z, state, [])
  else
    -- last zone was a transitional state (in hysteresis band)
    (z, prev_stable, if z % 2 = 0 ∧ z ≠ prev_stable then [(t, z / 2 - zone_offset)] else [])

/-- _cy_find_multi_edges (decode.pyx lines 257-310): loop over one chunk. -/
def cy_find_multi_edges (hyst_thresholds : List ℚ) (zone_offset : ℤ) (t sample_period : ℚ)
    (chunk : List ℚ) (state prev_stable : ℤ) : ℤ × ℤ × List (ℚ × ℤ) :=
  match chunk with
  | [] => (state, prev_stable, [])
  | sample :: rest =>
    let r1 := multiEdgeStep hyst_thresholds zone_offset t sample state prev_stable
    let r2 := cy_find_multi_edges hyst_thresholds zone_offset (t + sample_period)
      sample_period rest r1.1 r1.2.1
    (r2.1, r2.2.1, r1.2.2 ++ r2.2.2)

/-- The chunk loop of find_multi_edges (decode.pyx lines 232-252). -/
def find_multi_edges_go (hyst_thresholds : List ℚ) (zone_offset : ℤ) :
    ℤ → ℤ → List SampleChunk → List (ℚ × ℤ)
  | _, _, [] => []
  | state, prev_stable, sc :: rest =>
    if state = ES_START then
      let center_ix : ℤ := (multiZoneAux (sc.samples.headD 0) (centerThresholds hyst_thresholds) : ℤ)
      let init : ℚ × ℤ := (sc.start_time, center_ix - zone_offset)
      let r := cy_find_multi_edges hyst_thresholds zone_offset sc.start_time sc.sample_period
        sc.samples state (center_ix - zone_offset)
      init :: (r.2.2 ++ find_multi_edges_go hyst_thresholds zone_offset r.1 r.2.1 rest)
    else
      let r := cy_find_multi_edges hyst_thresholds zone_offset sc.start_time sc.sample_period
        sc.samples state prev_stable
      r.2.2 ++ find_multi_edges_go hyst_thresholds zone_offset r.1 r.2.1 rest

/-- find_multi_edges (decode.pyx lines 188-254).  The two asserts at lines
204-205 fire when the generator is first consumed, before any element is
produced; they are modelled as the error branches.  sizeof(h_t) //
sizeof(double) = 16. -/
def find_multi_edges (samples : List SampleChunk) (hyst_thresholds : List ℚ) :
    Except String (List (ℚ × ℤ)) :=
  if hyst_thresholds.length % 2 ≠ 0 then
    .error "There must be an even number of hyst_thresholds"
  else if ¬ hyst_thresholds.length ≤ 16 then
    .error "hyst_thresholds is too large"
  else
    .ok (find_multi_edges_go hyst_thresholds (zoneOffsetOf hyst_thresholds : ℤ)
      ES_START 0 samples)

/-- util/stats.pyx OnlineStats: count, running mean, running sum of squared
deviations. -/
structure OnlineStats where
  c : ℕ
  m : ℚ
  s : ℚ
deriving DecidableEq

/-- OnlineStats.__init__ -/
def OnlineStats.init : OnlineStats := ⟨0, 0, 0⟩

/-- OnlineStats.accumulate (stats.pyx lines 42-55). -/
def OnlineStats.accumulate (os : OnlineStats) (data : ℚ) : OnlineStats :=
  let c : ℕ := os.c + 1
  let delta : ℚ := data - os.m
  let m : ℚ := os.m + delta / (c : ℚ)
  { c := c, m := m, s := os.s + delta * (data - m) }

/-- OnlineStats.accumulate_array (stats.pyx lines 58-71); its loop body is
the body of accumulate. -/
def OnlineStats.accumulate_array (os : OnlineStats) (data : List ℚ) : OnlineStats :=
  match data with
  | [] => os
  | d :: rest => (os.accumulate d).accumulate_array rest

/-- OnlineStats.variance (stats.pyx lines 74-87). -/
def OnlineStats.variance (os : OnlineStats) (ddof : ℤ) : ℚ :=
  if 2 < os.c then os.s / ((os.c : ℚ) - (ddof : ℚ)) else 0

/-- OnlineStats.std (stats.pyx lines 89-97).  The square root of the
(rational-valued) variance is an exact real, hence not executable. -/
noncomputable def OnlineStats.std (os : OnlineStats) (ddof : ℤ) : ℝ :=
  Real.sqrt ((os.variance ddof : ℚ) : ℝ)

/-- OnlineStats.mean (stats.pyx lines 99-101). -/
def OnlineStats.mean (os : OnlineStats) : ℚ := os.m

/-- _capacify_inner_loop (sigproc.pyx lines 95-111): iterate the RC
difference equations; returns the new capacitor voltage and charge. -/
def capacify_inner_loop (iterations : ℕ) (capacitance resistance dt sample_v : ℚ)
    (vc q : ℚ) : ℚ × ℚ :=
  match iterations with
  | 0 => (vc, q)
  | n + 1 =>
    let i := (sample_v - vc) / resistance
    let dq := i * dt
    let q2 := q + dq
    let vc2 := q2 / capacitance
    capacify_inner_loop n capacitance resistance dt sample_v vc2 q2

/-- The inner sample loop of capacify (sigproc.pyx lines 87-91), producing
the filtered chunk and threading (vc, q). -/
def capacify_chunk_samples (iterations : ℕ) (capacitance resistance dt : ℚ) :
    ℚ → ℚ → List ℚ → List ℚ × ℚ × ℚ
  | vc, q, [] => ([], vc, q)
  | vc, q, sample_v :: rest =>
    let r := capacify_inner_loop iterations capacitance resistance dt sample_v vc q
    let r2 := capacify_chunk_samples iterations capacitance resistance dt r.1 r.2 rest
    (r.1 :: r2.1, r2.2)

/-- The chunk loop of capacify (sigproc.pyx lines 76-92).  The vc_init flag
is initialized False and never assigned afterwards, so the guard at line 79
re-runs for every chunk; the flag is threaded unchanged to stay faithful. -/
def capacify_go (capacitance resistance : ℚ) (iterations : ℕ) :
    Bool → ℚ → ℚ → List SampleChunk → List SampleChunk
  | _, _, _, [] => []
  | vc_init, vc, q, sc :: rest =>
    let vc0 := if vc_init = false then sc.samples.headD 0 else vc
    let q0 := if vc_init = false then vc0 * capacitance else q
    let dt := sc.sample_period / (iterations : ℚ)
    let r := capacify_chunk_samples iterations capacitance resistance dt vc0 q0 sc.samples
    ⟨r.1, sc.start_time, sc.sample_period⟩ ::
      capacify_go capacitance resistance iterations vc_init r.2.1 r.2.2 rest

/-- capacify (sigproc.pyx lines 34-92). -/
def capacify (samples : List SampleChunk) (capacitance resistance : ℚ) (iterations : ℕ) :
    List SampleChunk :=
  capacify_go capacitance resistance iterations false 0 0 samples

/-- The per-chunk function capacify reduces to, since vc_init never becomes
true: voltage and charge are re-seeded from the chunk's first sample. -/
def capacifyChunk (capacitance resistance : ℚ) (iterations : ℕ) (sc : SampleChunk) :
    SampleChunk :=
  let vc0 := sc.samples.headD 0
  ⟨(capacify_chunk_samples iterations capacitance resistance
      (sc.sample_period / (iterations : ℚ)) vc0 (vc0 * capacitance) sc.samples).1,
    sc.start_time, sc.sample_period⟩

/-! ### Basic facts about the three-zone classifier and the step function -/

theorem zone3_cases (ht hb s : ℚ) :
    zone3 ht hb s = ZONE_3_L0 ∨ zone3 ht hb s = ZONE_2_T ∨ zone3 ht hb s = ZONE_1_L1 := by
  unfold zone3
  split_ifs <;> simp

theorem zone3_ne_start (ht hb s : ℚ) : zone3 ht hb s ≠ ES_START := by
  rcases zone3_cases ht hb s with h | h | h <;> rw [h] <;> decide


theorem edgeStep_fst_cases (ht hb t s : ℚ) (state ps : ℤ) :
    (edgeStep ht hb t s state ps).1 = state ∨ (edgeStep ht hb t s state ps).1 = zone3 ht hb s := by
  unfold edgeStep
  dsimp only
  split_ifs <;> simp

theorem edgeStep_state_ne_start (ht hb t s : ℚ) (state ps : ℤ) (h : state ≠ ES_START) :
    (edgeStep ht hb t s state ps).1 ≠ ES_START := by
  rcases edgeStep_fst_cases ht hb t s state ps with hc | hc <;> rw [hc]
  · exact h
  · exact zone3_ne_start ht hb s

theorem edgeStep_start (ht hb t s : ℚ) (ps : ℤ) :
    edgeStep ht hb t s ES_START ps =
      (if zoneIsStable (zone3 ht hb s) then zone3 ht hb s else ES_START, ps, []) := by
  unfold edgeStep
  simp

theorem edgeStep_edges_fst (ht hb t s : ℚ) (state ps : ℤ) :
    List.Sublist (((edgeStep ht hb t s state ps).2.2).map Prod.fst) [t] := by
  unfold edgeStep
  dsimp only
  split_ifs <;> simp

/-! ### The state machine over explicit (time, sample) lists -/

theorem cy_find_edges_eq_run (ht hb : ℚ) (chunk : List ℚ) :
    ∀ (t p : ℚ) (state ps : ℤ),
      cy_find_edges ht hb t p chunk state ps = runEdges ht hb state ps (timedSamples t p chunk) := by
  induction chunk with
  | nil => intro t p state ps; rfl
  | cons sample rest ih =>
    intro t p state ps
    simp only [cy_find_edges, timedSamples, runEdges, ih]

theorem runEdges_append (ht hb : ℚ) (L1 : List (ℚ × ℚ)) :
    ∀ (L2 : List (ℚ × ℚ)) (state ps : ℤ),
      runEdges ht hb state ps (L1 ++ L2) =
        ((runEdges ht hb (runEdges ht hb state ps L1).1 (runEdges ht hb state ps L1).2.1 L2).1,
         (runEdges ht hb (runEdges ht hb state ps L1).1 (runEdges ht hb state ps L1).2.1 L2).2.1,
         (runEdges ht hb state ps L1).2.2 ++
           (runEdges ht hb (runEdges ht hb state ps L1).1 (runEdges ht hb state ps L1).2.1 L2).2.2) := by
  induction L1 with
  | nil => intro L2 state ps; rfl
  | cons x rest ih =>
    intro L2 state ps
    obtain ⟨t, s⟩ := x
    simp only [List.cons_append, runEdges, List.append_eq, ih, List.append_assoc]

theorem runEdges_state_ne_start (ht hb : ℚ) (L : List (ℚ × ℚ)) :
    ∀ (state ps : ℤ), state ≠ ES_START → (runEdges ht hb state ps L).1 ≠ ES_START := by
  induction L with
  | nil => intro state ps h; exact h
  | cons x rest ih =>
    intro state ps h
    obtain ⟨t, s⟩ := x
    simp only [runEdges]
    exact ih _ _ (edgeStep_state_ne_start ht hb t s state ps h)

theorem runEdges_fst_sublist (ht hb : ℚ) (L : List (ℚ × ℚ)) :
    ∀ (state ps : ℤ),
      List.Sublist (((runEdges ht hb state ps L).2.2).map Prod.fst) (L.map Prod.fst) := by
  induction L with
  | nil => intro state ps; simp [runEdges]
  | cons x rest ih =>
    intro state ps
    obtain ⟨t, s⟩ := x
    simp only [runEdges, List.map_append, List.map_cons]
    exact List.Sublist.append (edgeStep_edges_fst ht hb t s state ps) (ih _ _)

theorem runEdges_start_edges (ht hb : ℚ) (t s : ℚ) (ps : ℤ) (L : List (ℚ × ℚ)) :
    (runEdges ht hb ES_START ps ((t, s) :: L)).2.2 =
      (runEdges ht hb (if zoneIsStable (zone3 ht hb s) then zone3 ht hb s else ES_START)
        ps L).2.2 := by
  simp only [runEdges, edgeStep_start, List.nil_append]

theorem runEdges_fst_sublist_start (ht hb : ℚ) (ps : ℤ) (L : List (ℚ × ℚ)) :
    List.Sublist (((runEdges ht hb ES_START ps L).2.2).map Prod.fst) ((L.map Prod.fst).tail) := by
  cases L with
  | nil => simp [runEdges]
  | cons x rest =>
    obtain ⟨t, s⟩ := x
    rw [runEdges_start_edges]
    simpa using runEdges_fst_sublist ht hb rest _ ps

/-! ### Canonical form of the chunk loop -/

theorem find_edges_go_ne_start (thresh ht hb : ℚ) (K : List SampleChunk) :
    ∀ (state ps : ℤ), state ≠ ES_START →
      find_edges_go thresh ht hb state ps K = (runEdges ht hb state ps (flattenTimed K)).2.2 := by
  induction K with
  | nil => intro state ps h; simp [find_edges_go, flattenTimed, runEdges]
  | cons sc rest ih =>
    intro state ps h
    simp only [find_edges_go, if_neg h, flattenTimed, runEdges_append]
    rw [cy_find_edges_eq_run]
    congr 1
    exact ih _ _ (runEdges_state_ne_start ht hb _ state ps h)

theorem find_edges_go_start (thresh ht hb : ℚ) (sc : SampleChunk) (rest : List SampleChunk)
    (s0 : ℚ) (tl : List ℚ) (hsamp : sc.samples = s0 :: tl)
    (hstable : zoneIsStable (zone3 ht hb s0)) (ps : ℤ) :
    find_edges_go thresh ht hb ES_START ps (sc :: rest) =
      (sc.start_time, if thresh < s0 then 1 else 0) ::
        (runEdges ht hb ES_START (if thresh < s0 then ZONE_1_L1 else ZONE_3_L0)
          (flattenTimed (sc :: rest))).2.2 := by
  have hhead : sc.samples.headD 0 = s0 := by rw [hsamp]; rfl
  -- after the first (stable) sample the state is no longer ES_START
  have hne : (runEdges ht hb ES_START (if thresh < s0 then ZONE_1_L1 else ZONE_3_L0)
      (timedSamples sc.start_time sc.sample_period sc.samples)).1 ≠ ES_START := by
    rw [hsamp]
    simp only [timedSamples, runEdges, edgeStep_start, if_pos hstable]
    exact runEdges_state_ne_start ht hb _ _ _ (zone3_ne_start ht hb s0)
  simp only [find_edges_go, hhead, eq_self_iff_true, if_true]
  rw [cy_find_edges_eq_run]
  rw [find_edges_go_ne_start thresh ht hb rest _ _ hne]
  simp only [flattenTimed, chunkTimed, runEdges_append]

/-! ### Output times are a subsequence of the sample times -/

theorem find_edges_go_fst_sublist (thresh ht hb : ℚ) (K : List SampleChunk) :
    ∀ (state ps : ℤ), (∀ sc ∈ K, sc.samples ≠ []) →
      List.Sublist ((find_edges_go thresh ht hb state ps K).map Prod.fst)
        ((flattenTimed K).map Prod.fst) := by
  induction K with
  | nil => intro state ps _; simp [find_edges_go, flattenTimed]
  | cons sc rest ih =>
    intro state ps hne
    have hrest : ∀ sc2 ∈ rest, sc2.samples ≠ [] := fun sc2 h2 => hne sc2 (List.mem_cons_of_mem sc h2)
    obtain ⟨s0, tl, hsamp⟩ : ∃ s0 tl, sc.samples = s0 :: tl := by
      rcases hx : sc.samples with _ | ⟨s0, tl⟩
      · exact absurd hx (hne sc (List.mem_cons_self sc rest))
      · exact ⟨s0, tl, rfl⟩
    have hchunk : chunkTimed sc =
        (sc.start_time, s0) ::
          timedSamples (sc.start_time + sc.sample_period) sc.sample_period tl := by
      unfold chunkTimed
      rw [hsamp]
      rfl
    by_cases hst : state = ES_START
    · subst hst
      have hhead : sc.samples.headD 0 = s0 := by rw [hsamp]; rfl
      simp only [find_edges_go, hhead, eq_self_iff_true, if_true, flattenTimed,
        List.map_append, List.map_cons, hchunk]
      rw [cy_find_edges_eq_run, hsamp]
      simp only [timedSamples]
      refine List.Sublist.cons₂ _ (List.Sublist.append ?_ (ih _ _ hrest))
      simpa using runEdges_fst_sublist_start ht hb
        (if thresh < s0 then ZONE_1_L1 else ZONE_3_L0)
        ((sc.start_time, s0) ::
          timedSamples (sc.start_time + sc.sample_period) sc.sample_period tl)
    · simp only [find_edges_go, if_neg hst, flattenTimed, List.map_append]
      rw [cy_find_edges_eq_run]
      exact List.Sublist.append (runEdges_fst_sublist ht hb _ _ _) (ih _ _ hrest)

/-! ### The flattened sample times are strictly increasing -/

theorem timedSamples_fst_bounds (p : ℚ) (hp : 0 < p) (chunk : List ℚ) :
    ∀ t : ℚ,
      List.Pairwise (fun a b : ℚ × ℚ => a.1 < b.1) (timedSamples t p chunk) ∧
      ∀ x ∈ timedSamples t p chunk, t ≤ x.1 ∧ x.1 < t + (chunk.length : ℚ) * p := by
  induction chunk with
  | nil => intro t; simp [timedSamples]
  | cons s restc ih =>
    intro t
    obtain ⟨ihp, ihb⟩ := ih (t + p)
    constructor
    · refine List.Pairwise.cons ?_ ihp
      intro x hx
      have := (ihb x hx).1
      simp only []
      linarith
    · intro x hx
      rcases List.mem_cons.mp hx with hx | hx
      · subst hx
        constructor
        · exact le_refl t
        · have : (0 : ℚ) ≤ (restc.length : ℚ) * p := by positivity
          simp only [List.length_cons]
          push_cast
          linarith
      · obtain ⟨h1, h2⟩ := ihb x hx
        constructor
        · linarith
        · simp only [List.length_cons]
          push_cast
          linarith

theorem flattenTimed_lower (K : List SampleChunk) :
    ∀ sc : SampleChunk, (∀ c ∈ sc :: K, 0 < c.sample_period) → contiguous (sc :: K) →
      ∀ x ∈ flattenTimed (sc :: K), sc.start_time ≤ x.1 := by
  induction K with
  | nil =>
    intro sc hpos _ x hx
    simp only [flattenTimed, List.append_nil] at hx
    exact ((timedSamples_fst_bounds sc.sample_period
      (hpos sc (List.mem_cons_self _ _)) sc.samples sc.start_time).2 x hx).1
  | cons sc2 rest ih =>
    intro sc hpos hcontig x hx
    have hpos1 : 0 < sc.sample_period := hpos sc (List.mem_cons_self _ _)
    have hcontig2 : contiguous (sc2 :: rest) := by
      have h := hcontig
      unfold contiguous contiguousB at h
      simp only [Bool.and_eq_true] at h
      exact h.2
    have hstart : sc2.start_time = sc.start_time + (sc.samples.length : ℚ) * sc.sample_period := by
      have h := hcontig
      unfold contiguous contiguousB at h
      simp only [Bool.and_eq_true, beq_iff_eq] at h
      exact h.1
    simp only [flattenTimed] at hx ⊢
    rcases List.mem_append.mp hx with hx | hx
    · exact ((timedSamples_fst_bounds sc.sample_period hpos1 sc.samples sc.start_time).2 x hx).1
    · have h2 : sc2.start_time ≤ x.1 := by
        refine ih sc2 ?_ hcontig2 x ?_
        · intro c hc
          exact hpos c (List.mem_cons_of_mem sc hc)
        · simpa [flattenTimed] using hx
      have hnn : (0 : ℚ) ≤ (sc.samples.length : ℚ) * sc.sample_period := by positivity
      rw [hstart] at h2
      linarith

theorem contiguous_cons_cons (sc sc2 : SampleChunk) (rest : List SampleChunk) :
    contiguous (sc :: sc2 :: rest) ↔
      sc2.start_time = sc.start_time + (sc.samples.length : ℚ) * sc.sample_period ∧
        contiguous (sc2 :: rest) := by
  have h : contiguousB (sc :: sc2 :: rest) =
      ((sc2.start_time == sc.start_time + (sc.samples.length : ℚ) * sc.sample_period) &&
        contiguousB (sc2 :: rest)) := rfl
  unfold contiguous
  rw [h]
  simp [Bool.and_eq_true, beq_iff_eq]

theorem flattenTimed_pairwise (K : List SampleChunk)
    (hpos : ∀ c ∈ K, 0 < c.sample_period) (hcontig : contiguous K) :
    List.Pairwise (fun a b : ℚ × ℚ => a.1 < b.1) (flattenTimed K) := by
  induction K with
  | nil => simp [flattenTimed]
  | cons sc rest ih =>
    have hpos1 : 0 < sc.sample_period := hpos sc (List.mem_cons_self _ _)
    have hposr : ∀ c ∈ rest, 0 < c.sample_period :=
      fun c hc => hpos c (List.mem_cons_of_mem sc hc)
    obtain ⟨hpw, hbd⟩ := timedSamples_fst_bounds sc.sample_period hpos1 sc.samples sc.start_time
    simp only [flattenTimed]
    rw [List.pairwise_append]
    refine ⟨hpw, ?_, ?_⟩
    · cases rest with
      | nil => simp [flattenTimed]
      | cons sc2 r2 =>
        exact ih hposr ((contiguous_cons_cons sc sc2 r2).mp hcontig).2
    · intro x hx y hy
      cases rest with
      | nil => simp [flattenTimed] at hy
      | cons sc2 r2 =>
        obtain ⟨hstart, hcontig2⟩ := (contiguous_cons_cons sc sc2 r2).mp hcontig
        have h1 : x.1 < sc.start_time + (sc.samples.length : ℚ) * sc.sample_period :=
          (hbd x hx).2
        have h2 : sc2.start_time ≤ y.1 := flattenTimed_lower r2 sc2 hposr hcontig2 y hy
        rw [hstart] at h2
        linarith

/-- Claim C3: for every input sample stream with non-empty chunks,
time-contiguous chunk timing and strictly positive sample periods, the times
of the elements yielded by find_edges (the initial-state element and every
edge) are strictly increasing. -/
theorem find_edges_time_monotone (K : List SampleChunk) (logic : ℚ × ℚ) (hysteresis : ℚ)
    (hne : ∀ sc ∈ K, sc.samples ≠ []) (hpos : ∀ sc ∈ K, 0 < sc.sample_period)
    (hcontig : contiguous K) :
    List.Chain' (fun a b : ℚ × ℤ => a.1 < b.1) (find_edges K logic hysteresis) := by
  have hsub := find_edges_go_fst_sublist (threshOf logic) (hystTop logic hysteresis)
    (hystBot logic hysteresis) K ES_START 0 hne
  have hpw : List.Pairwise (fun a b : ℚ => a < b) ((flattenTimed K).map Prod.fst) := by
    rw [List.pairwise_map]
    exact flattenTimed_pairwise K hpos hcontig
  have hp2 : List.Pairwise (fun a b : ℚ => a < b)
      ((find_edges K logic hysteresis).map Prod.fst) := by
    unfold find_edges
    exact List.Pairwise.sublist hsub hpw
  have hch := List.Pairwise.chain' hp2
  rwa [List.chain'_map] at hch

/-- Witness for C3 at a concrete two-chunk stream. -/
theorem find_edges_time_monotone_witness :
    List.Chain' (fun a b : ℚ × ℤ => a.1 < b.1)
      (find_edges [⟨[0, 1], 0, 1⟩, ⟨[0], 2, 1⟩] (0, 1) (2/5)) :=
  find_edges_time_monotone [⟨[0, 1], 0, 1⟩, ⟨[0], 2, 1⟩] (0, 1) (2/5)
    (by decide) (by decide) (by norm_num [contiguous, contiguousB])

/-- Claim C1 counterexample: the chunk lists [[1/2, 9/10]] and [[1/2]], [[9/10]]
denote the same logical sample stream (equal flattened timed samples,
contiguous timing, positive periods, non-empty chunks), yet find_edges yields
[(0, 0)] for the first and [(0, 0), (1, 1)] for the second: while the detector
is still in the start state at a chunk boundary, the initial-state element is
emitted again for the next chunk. -/
theorem find_edges_chunk_invariance_cex :
    flattenTimed [⟨[1/2, 9/10], 0, 1⟩] = flattenTimed [⟨[1/2], 0, 1⟩, ⟨[9/10], 1, 1⟩] ∧
    contiguous [⟨[1/2, 9/10], 0, 1⟩] ∧
    contiguous [⟨[1/2], 0, 1⟩, ⟨[9/10], 1, 1⟩] ∧
    (∀ sc ∈ ([⟨[1/2, 9/10], 0, 1⟩] : List SampleChunk), 0 < sc.sample_period ∧ sc.samples ≠ []) ∧
    (∀ sc ∈ ([⟨[1/2], 0, 1⟩, ⟨[9/10], 1, 1⟩] : List SampleChunk), 0 < sc.sample_period ∧ sc.samples ≠ []) ∧
    find_edges [⟨[1/2, 9/10], 0, 1⟩] (0, 1) (2/5) ≠
      find_edges [⟨[1/2], 0, 1⟩, ⟨[9/10], 1, 1⟩] (0, 1) (2/5) := by
  refine ⟨?_, ?_, ?_, ?_, ?_, ?_⟩
  · norm_num [flattenTimed, chunkTimed, timedSamples]
  · norm_num [contiguous, contiguousB]
  · norm_num [contiguous, contiguousB]
  · decide
  · decide
  · norm_num [find_edges, find_edges_go, cy_find_edges, edgeStep, zone3, zoneIsStable,
      threshOf, hystTop, hystBot, spanOf, ES_START, ZONE_1_L1, ZONE_2_T, ZONE_3_L0]

/-- Claim C1 (amended): chunk-boundary invariance of the edge detector holds
for every logical sample stream whose first sample lies in a stable zone
(outside the hysteresis band).  Two partitions of the same logical stream
(equal flattened (time, sample) sequences) with non-empty first chunks yield
identical edge streams: the same elements, in the same order. -/
theorem find_edges_chunk_invariance (logic : ℚ × ℚ) (hysteresis : ℚ)
    (sc1 sc2 : SampleChunk) (r1 r2 : List SampleChunk)
    (hne1 : sc1.samples ≠ []) (hne2 : sc2.samples ≠ [])
    (hflat : flattenTimed (sc1 :: r1) = flattenTimed (sc2 :: r2))
    (hstable : zoneIsStable (zone3 (hystTop logic hysteresis) (hystBot logic hysteresis)
      (sc1.samples.headD 0))) :
    find_edges (sc1 :: r1) logic hysteresis = find_edges (sc2 :: r2) logic hysteresis := by
  obtain ⟨s0, tl1, hs1⟩ := List.exists_cons_of_ne_nil hne1
  obtain ⟨s1, tl2, hs2⟩ := List.exists_cons_of_ne_nil hne2
  have h1 : flattenTimed (sc1 :: r1) =
      (sc1.start_time, s0) ::
        (timedSamples (sc1.start_time + sc1.sample_period) sc1.sample_period tl1 ++
          flattenTimed r1) := by
    simp [flattenTimed, chunkTimed, hs1, timedSamples]
  have h2 : flattenTimed (sc2 :: r2) =
      (sc2.start_time, s1) ::
        (timedSamples (sc2.start_time + sc2.sample_period) sc2.sample_period tl2 ++
          flattenTimed r2) := by
    simp [flattenTimed, chunkTimed, hs2, timedSamples]
  have hflat2 := hflat
  rw [h1, h2] at hflat2
  simp only [List.cons.injEq, Prod.mk.injEq] at hflat2
  obtain ⟨⟨hts, hss⟩, -⟩ := hflat2
  have hst1 : zoneIsStable (zone3 (hystTop logic hysteresis) (hystBot logic hysteresis) s0) := by
    rw [hs1] at hstable
    simpa using hstable
  have hst2 : zoneIsStable (zone3 (hystTop logic hysteresis) (hystBot logic hysteresis) s1) :=
    hss ▸ hst1
  unfold find_edges
  rw [find_edges_go_start (threshOf logic) (hystTop logic hysteresis)
    (hystBot logic hysteresis) sc1 r1 s0 tl1 hs1 hst1 0]
  rw [find_edges_go_start (threshOf logic) (hystTop logic hysteresis)
    (hystBot logic hysteresis) sc2 r2 s1 tl2 hs2 hst2 0]
  rw [hflat, hts, hss]

/-- Witness for the amended claim C1 at a concrete stream split two ways. -/
theorem find_edges_chunk_invariance_witness :
    find_edges [⟨[1, 0], 0, 1⟩] (0, 1) (2/5) =
      find_edges [⟨[1], 0, 1⟩, ⟨[0], 1, 1⟩] (0, 1) (2/5) :=
  find_edges_chunk_invariance (0, 1) (2/5) ⟨[1, 0], 0, 1⟩ ⟨[1], 0, 1⟩ [] [⟨[0], 1, 1⟩]
    (by decide) (by decide)
    (by norm_num [flattenTimed, chunkTimed, timedSamples])
    (by norm_num [zone3, zoneIsStable, hystTop, hystBot, spanOf,
      ZONE_1_L1, ZONE_2_T, ZONE_3_L0])

/-! ### The initial-state element -/

theorem zone3_stable_high (ht hb s : ℚ) (h : zone3 ht hb s = ZONE_1_L1) : ht < s := by
  unfold zone3 at h
  split_ifs at h with h1 h2
  · exact h1
  · exact absurd h (by decide)
  · exact absurd h (by decide)

theorem zone3_stable_low (ht hb s : ℚ) (h : zone3 ht hb s = ZONE_3_L0) : ¬ hb < s := by
  unfold zone3 at h
  split_ifs at h with h1 h2
  · exact absurd h (by decide)
  · exact absurd h (by decide)
  · exact h2

theorem hystBot_le_thresh_le_hystTop (low high hysteresis : ℚ) (hlh : low ≤ high)
    (hh : 0 ≤ hysteresis) :
    hystBot (low, high) hysteresis ≤ threshOf (low, high) ∧
      threshOf (low, high) ≤ hystTop (low, high) hysteresis := by
  unfold hystBot hystTop threshOf spanOf
  constructor <;> nlinarith [mul_nonneg (sub_nonneg.mpr hlh) hh]

/-- Claim C2 counterexample: for the single-chunk stream [[3/5, 1/5]] with
logic levels (0, 1) and hysteresis 2/5, the first sample 3/5 lies in the
transition zone and the first stable sample is 1/5, whose adopted logic level
is ZONE_3_L0 / 2 = 0; yet the initial element yielded is (0, 1), because
find_edges derives it from chunk[0] compared against the plain midpoint
threshold, not from the first stable sample. -/
theorem find_edges_initial_state_cex :
    zone3 (hystTop (0, 1) (2/5)) (hystBot (0, 1) (2/5)) (3/5) = ZONE_2_T ∧
    zone3 (hystTop (0, 1) (2/5)) (hystBot (0, 1) (2/5)) (1/5) = ZONE_3_L0 ∧
    find_edges [⟨[3/5, 1/5], 0, 1⟩] (0, 1) (2/5) = [(0, 1)] ∧
    (1 : ℤ) ≠ ZONE_3_L0 / 2 := by
  refine ⟨?_, ?_, ?_, by decide⟩
  · norm_num [zone3, hystTop, hystBot, spanOf, ZONE_1_L1, ZONE_2_T]
  · norm_num [zone3, hystTop, hystBot, spanOf, ZONE_1_L1, ZONE_2_T, ZONE_3_L0]
  · norm_num [find_edges, find_edges_go, cy_find_edges, edgeStep, zone3, zoneIsStable,
      threshOf, hystTop, hystBot, spanOf, ES_START, ZONE_1_L1, ZONE_2_T, ZONE_3_L0]

/-- Claim C2 (amended): for every stream whose first chunk is non-empty and
whose first sample lies in a stable zone (with low <= high and hysteresis >= 0),
the first element yielded by find_edges denotes the initial state: it is
yielded exactly once (everything after it is produced by the transition
rules), it carries the time of the stream's first sample, its state is the
logic level adopted from the first stable sample (the first sample itself),
and no edge is emitted for the transition that establishes it (the remaining
output is the run over the samples after the first). -/
theorem find_edges_initial_state (low high hysteresis : ℚ) (hlh : low ≤ high)
    (hh : 0 ≤ hysteresis) (sc : SampleChunk) (rest : List SampleChunk)
    (s0 : ℚ) (tl : List ℚ) (hsamp : sc.samples = s0 :: tl)
    (hstable : zoneIsStable (zone3 (hystTop (low, high) hysteresis)
      (hystBot (low, high) hysteresis) s0)) :
    find_edges (sc :: rest) (low, high) hysteresis =
      (sc.start_time,
        zone3 (hystTop (low, high) hysteresis) (hystBot (low, high) hysteresis) s0 / 2) ::
        (runEdges (hystTop (low, high) hysteresis) (hystBot (low, high) hysteresis)
          (zone3 (hystTop (low, high) hysteresis) (hystBot (low, high) hysteresis) s0)
          (zone3 (hystTop (low, high) hysteresis) (hystBot (low, high) hysteresis) s0)
          (timedSamples (sc.start_time + sc.sample_period) sc.sample_period tl ++
            flattenTimed rest)).2.2 := by
  have hbt := hystBot_le_thresh_le_hystTop low high hysteresis hlh hh
  have key1 : (if threshOf (low, high) < s0 then ZONE_1_L1 else ZONE_3_L0) =
      zone3 (hystTop (low, high) hysteresis) (hystBot (low, high) hysteresis) s0 := by
    rcases hstable with hz | hz
    · have hlt := zone3_stable_high _ _ _ hz
      rw [hz, if_pos (lt_of_le_of_lt hbt.2 hlt)]
    · have hle := zone3_stable_low _ _ _ hz
      push_neg at hle
      rw [hz, if_neg (not_lt.mpr (le_trans hle hbt.1))]
  have key2 : (if threshOf (low, high) < s0 then (1 : ℤ) else 0) =
      zone3 (hystTop (low, high) hysteresis) (hystBot (low, high) hysteresis) s0 / 2 := by
    rcases hstable with hz | hz
    · have hlt := zone3_stable_high _ _ _ hz
      rw [hz, if_pos (lt_of_le_of_lt hbt.2 hlt)]
      decide
    · have hle := zone3_stable_low _ _ _ hz
      push_neg at hle
      rw [hz, if_neg (not_lt.mpr (le_trans hle hbt.1))]
      decide
  have h1 : flattenTimed (sc :: rest) =
      (sc.start_time, s0) ::
        (timedSamples (sc.start_time + sc.sample_period) sc.sample_period tl ++
          flattenTimed rest) := by
    simp [flattenTimed, chunkTimed, hsamp, timedSamples]
  unfold find_edges
  rw [find_edges_go_start (threshOf (low, high)) (hystTop (low, high) hysteresis)
    (hystBot (low, high) hysteresis) sc rest s0 tl hsamp hstable 0]
  rw [key1, key2, h1, runEdges_start_edges, if_pos hstable]

/-- Witness for the amended claim C2 on the stream [[1, 0]]: the first sample
1 is stable High, and the output head is (0, 1). -/
theorem find_edges_initial_state_witness :
    find_edges [⟨[1, 0], 0, 1⟩] (0, 1) (2/5) =
      (0, zone3 (hystTop (0, 1) (2/5)) (hystBot (0, 1) (2/5)) 1 / 2) ::
        (runEdges (hystTop (0, 1) (2/5)) (hystBot (0, 1) (2/5))
          (zone3 (hystTop (0, 1) (2/5)) (hystBot (0, 1) (2/5)) 1)
          (zone3 (hystTop (0, 1) (2/5)) (hystBot (0, 1) (2/5)) 1)
          (timedSamples (0 + 1) 1 [0] ++ flattenTimed [])).2.2 :=
  find_edges_initial_state 0 1 (2/5) (by norm_num) (by norm_num) ⟨[1, 0], 0, 1⟩ [] 1 [0] rfl
    (by norm_num [zone3, zoneIsStable, hystTop, hystBot, spanOf, ZONE_1_L1, ZONE_2_T])

/-- Claim C4: the hysteresis debounce rule.  In a stable state X, a sample in
the transition zone records prev_stable = X, moves to the transitional state
and emits no edge.  In the transitional state, a sample in a stable zone Y
emits an edge at that sample's time carrying the logic level of Y (zone // 2)
iff Y differs from prev_stable, and in either case the state becomes Y. -/
theorem find_edges_debounce (ht hb : ℚ) :
    (∀ t s : ℚ, ∀ state ps : ℤ, (state = ZONE_1_L1 ∨ state = ZONE_3_L0) →
      zone3 ht hb s = ZONE_2_T →
      edgeStep ht hb t s state ps = (ZONE_2_T, state, [])) ∧
    (∀ t s : ℚ, ∀ ps : ℤ, zoneIsStable (zone3 ht hb s) →
      edgeStep ht hb t s ZONE_2_T ps =
        (zone3 ht hb s, ps,
          if zone3 ht hb s ≠ ps then [(t, zone3 ht hb s / 2)] else [])) := by
  constructor
  · intro t s state ps hstate hz
    have hns : state ≠ ES_START := by rcases hstate with h | h <;> rw [h] <;> decide
    unfold edgeStep
    dsimp only
    rw [if_neg hns, if_pos hstate, hz, if_neg (by decide : ¬ zoneIsStable ZONE_2_T)]
  · intro t s ps hstable
    unfold edgeStep
    dsimp only
    rw [if_neg (by decide : ZONE_2_T ≠ ES_START),
      if_neg (by decide : ¬ (ZONE_2_T = ZONE_1_L1 ∨ ZONE_2_T = ZONE_3_L0)),
      if_pos rfl]
    simp only [hstable, true_and]

/-- Witness for C4: in stable-High state, the sample 1/2 (transition zone for
thresholds 7/10 and 3/10) yields no edge and records prev_stable. -/
theorem find_edges_debounce_witness :
    edgeStep (7/10) (3/10) 5 (1/2) ZONE_1_L1 0 = (ZONE_2_T, ZONE_1_L1, []) :=
  (find_edges_debounce (7/10) (3/10)).1 5 (1/2) ZONE_1_L1 0 (Or.inl rfl)
    (by norm_num [zone3, ZONE_1_L1, ZONE_2_T])

/-- Claim C5: threshold derivation and the three-zone classification.  The
code's formulas equal thresh = (low+high)/2, span = high-low,
hyst_top = thresh + span*hysteresis/2, hyst_bot = thresh - span*hysteresis/2,
and each sample lands in exactly one zone: High iff sample > hyst_top,
Transition iff hyst_bot < sample <= hyst_top, Low iff sample <= hyst_bot. -/
theorem find_edges_thresholds (low high hysteresis : ℚ) (hlh : low ≤ high)
    (hh : 0 ≤ hysteresis) :
    threshOf (low, high) = (low + high) / 2 ∧
    spanOf (low, high) = high - low ∧
    hystTop (low, high) hysteresis =
      threshOf (low, high) + spanOf (low, high) * hysteresis / 2 ∧
    hystBot (low, high) hysteresis =
      threshOf (low, high) - spanOf (low, high) * hysteresis / 2 ∧
    (∀ s : ℚ,
      (zone3 (hystTop (low, high) hysteresis) (hystBot (low, high) hysteresis) s = ZONE_1_L1 ↔
        hystTop (low, high) hysteresis < s) ∧
      (zone3 (hystTop (low, high) hysteresis) (hystBot (low, high) hysteresis) s = ZONE_2_T ↔
        hystBot (low, high) hysteresis < s ∧ s ≤ hystTop (low, high) hysteresis) ∧
      (zone3 (hystTop (low, high) hysteresis) (hystBot (low, high) hysteresis) s = ZONE_3_L0 ↔
        s ≤ hystBot (low, high) hysteresis)) := by
  have hbt := hystBot_le_thresh_le_hystTop low high hysteresis hlh hh
  have hbh : hystBot (low, high) hysteresis ≤ hystTop (low, high) hysteresis :=
    le_trans hbt.1 hbt.2
  refine ⟨by unfold threshOf; ring, rfl, ?_, ?_, ?_⟩
  · unfold hystTop threshOf spanOf; ring
  · unfold hystBot threshOf spanOf; ring
  · intro s
    unfold zone3
    split_ifs with h1 h2
    · refine ⟨⟨fun _ => h1, fun _ => rfl⟩, ?_, ?_⟩
      · exact ⟨fun h => absurd h (by decide), fun ⟨_, hle⟩ => absurd h1 (not_lt.mpr hle)⟩
      · exact ⟨fun h => absurd h (by decide),
          fun hx => absurd h1 (not_lt.mpr (le_trans hx hbh))⟩
    · refine ⟨?_, ⟨fun _ => ⟨h2, not_lt.mp h1⟩, fun _ => rfl⟩, ?_⟩
      · exact ⟨fun h => absurd h (by decide), fun h => absurd h h1⟩
      · exact ⟨fun h => absurd h (by decide), fun h => absurd h2 (not_lt.mpr h)⟩
    · refine ⟨?_, ?_, ⟨fun _ => not_lt.mp h2, fun _ => rfl⟩⟩
      · exact ⟨fun h => absurd h (by decide), fun h => absurd h h1⟩
      · exact ⟨fun h => absurd h (by decide), fun ⟨ha, _⟩ => absurd ha h2⟩

/-- Witness for C5 at logic levels (0, 1) with hysteresis 2/5. -/
theorem find_edges_thresholds_witness : threshOf (0, 1) = (0 + 1) / 2 :=
  (find_edges_thresholds 0 1 (2/5) (by norm_num) (by norm_num)).1

/-! ### The multi-level detector -/

theorem multiZoneAux_le (s : ℚ) : ∀ l : List ℚ, multiZoneAux s l ≤ l.length
  | [] => le_refl 0
  | v :: rest => by
    unfold multiZoneAux
    split_ifs
    · simp
    · simp only [List.length_cons]
      exact Nat.succ_le_succ (multiZoneAux_le s rest)

theorem centerThresholds_length : ∀ l : List ℚ, (centerThresholds l).length = l.length / 2
  | [] => rfl
  | [a] => by
    have h : centerThresholds [a] = [] := rfl
    rw [h]
    norm_num
  | a :: b :: rest => by
    have h := centerThresholds_length rest
    unfold centerThresholds
    simp only [List.length_cons, h]
    omega

theorem range_even_count (N : ℕ) :
    ((List.range (2 * N + 1)).filter (fun z => z % 2 == 0)).length = N + 1 := by
  induction N with
  | zero => rfl
  | succ n ih =>
    have h1 : 2 * (n + 1) + 1 = (2 * n + 1) + 1 + 1 := by ring
    rw [h1, List.range_succ, List.range_succ]
    simp only [List.filter_append, List.length_append, ih, List.filter_cons, List.filter_nil]
    have e1 : ¬ (((2 * n + 1) % 2 == 0) = true) := by simp only [beq_iff_eq]; omega
    have e2 : ((2 * n + 1 + 1) % 2 == 0) = true := by simp only [beq_iff_eq]; omega
    rw [if_neg e1, if_pos e2]
    simp

/-- Claim C6: the multi-level generalization.  With 2N ordered threshold
boundaries: every sample's zone lies in 0..2N (alternating stable/transitional
by parity, hence N+1 stable logic levels and N center thresholds for the
initial state); the binary debounce rule holds generically (stable state with
transitional zone records prev_stable and emits nothing; transitional state
with stable zone Y emits an edge with state Y // 2 - zone_offset iff Y differs
from prev_stable); and the zone offset is N / 2, sending the middle stable
zone (zone N, present when N is even) to logic state 0. -/
theorem find_multi_edges_generalization (N : ℕ) (h_t : List ℚ)
    (hlen : h_t.length = 2 * N) (_hsort : List.Chain' (fun a b : ℚ => a ≤ b) h_t) :
    (∀ s : ℚ, multiZoneAux s h_t ≤ 2 * N) ∧
    ((List.range (2 * N + 1)).filter (fun z => z % 2 == 0)).length = N + 1 ∧
    (centerThresholds h_t).length = N ∧
    (∀ t s : ℚ, ∀ state ps : ℤ, state ≠ ES_START → state % 2 = 0 →
      (multiZoneAux s h_t : ℤ) % 2 = 1 →
      multiEdgeStep h_t (zoneOffsetOf h_t : ℤ) t s state ps =
        ((multiZoneAux s h_t : ℤ), state, [])) ∧
    (∀ t s : ℚ, ∀ state ps : ℤ, state % 2 = 1 →
      (multiZoneAux s h_t : ℤ) % 2 = 0 →
      multiEdgeStep h_t (zoneOffsetOf h_t : ℤ) t s state ps =
        ((multiZoneAux s h_t : ℤ), ps,
          if (multiZoneAux s h_t : ℤ) ≠ ps then
            [(t, (multiZoneAux s h_t : ℤ) / 2 - (zoneOffsetOf h_t : ℤ))]
          else [])) ∧
    zoneOffsetOf h_t = N / 2 ∧
    (N % 2 = 0 → ((N / 2 : ℕ) : ℤ) - (zoneOffsetOf h_t : ℤ) = 0) := by
  refine ⟨fun s => hlen ▸ multiZoneAux_le s h_t, range_even_count N, ?_, ?_, ?_, ?_, ?_⟩
  · rw [centerThresholds_length, hlen]
    omega
  · intro t s state ps hne hstate hz
    unfold multiEdgeStep
    dsimp only
    rw [if_neg hne, if_pos hstate, if_neg (by omega : ¬ (multiZoneAux s h_t : ℤ) % 2 = 0)]
  · intro t s state ps hstate hz
    have hne : state ≠ ES_START := by
      intro he
      rw [he] at hstate
      norm_num [ES_START] at hstate
    unfold multiEdgeStep
    dsimp only
    rw [if_neg hne, if_neg (by omega : ¬ state % 2 = 0)]
    simp only [hz, eq_self_iff_true, true_and]
  · unfold zoneOffsetOf
    rw [hlen]
    omega
  · intro hN
    unfold zoneOffsetOf
    rw [hlen]
    omega

/-- Witness for C6 with N = 2 and thresholds [1, 2, 3, 4]: in stable state 0,
the sample 7/2 lies in transitional zone 3. -/
theorem find_multi_edges_generalization_witness :
    multiEdgeStep [1, 2, 3, 4] (zoneOffsetOf [1, 2, 3, 4] : ℤ) 5 (7/2) 0 0 =
      ((multiZoneAux (7/2) [1, 2, 3, 4] : ℤ), 0, []) :=
  (find_multi_edges_generalization 2 [1, 2, 3, 4] (by decide)
      (by norm_num [List.chain'_cons])).2.2.2.1 5 (7/2) 0 0
    (by decide) (by decide)
    (by norm_num [multiZoneAux])

/-- Claim C10: the two asserts of find_multi_edges.  An odd-length or
longer-than-16 hyst_thresholds list makes the generator fail before any
element is produced; an even-length list of at most 16 thresholds passes both
asserts and output may be produced. -/
theorem find_multi_edges_asserts (samples : List SampleChunk) (hyst_thresholds : List ℚ) :
    (hyst_thresholds.length % 2 ≠ 0 ∨ 16 < hyst_thresholds.length →
      ∃ msg : String, find_multi_edges samples hyst_thresholds = .error msg) ∧
    (hyst_thresholds.length % 2 = 0 → hyst_thresholds.length ≤ 16 →
      ∃ out, find_multi_edges samples hyst_thresholds = .ok out) := by
  constructor
  · intro h
    unfold find_multi_edges
    by_cases he : hyst_thresholds.length % 2 ≠ 0
    · rw [if_pos he]
      exact ⟨_, rfl⟩
    · rcases h with h | h
      · exact absurd h he
      · rw [if_neg he, if_pos (by omega : ¬ hyst_thresholds.length ≤ 16)]
        exact ⟨_, rfl⟩
  · intro h1 h2
    unfold find_multi_edges
    rw [if_neg (not_not_intro h1), if_neg (not_not_intro h2)]
    exact ⟨_, rfl⟩

/-- Witness for C10: a 3-element threshold list errors, a 2-element one
produces output. -/
theorem find_multi_edges_asserts_witness :
    (∃ msg : String, find_multi_edges [] [0, 1, 2] = .error msg) ∧
    (∃ out, find_multi_edges [] [0, 1] = .ok out) :=
  ⟨(find_multi_edges_asserts [] [0, 1, 2]).1 (Or.inl (by decide)),
   (find_multi_edges_asserts [] [0, 1]).2 (by decide) (by decide)⟩

/-! ### Online statistics -/

theorem accumulate_array_eq_foldl : ∀ (os : OnlineStats) (ys : List ℚ),
    os.accumulate_array ys = ys.foldl OnlineStats.accumulate os
  | _, [] => rfl
  | os, y :: rest => by
    unfold OnlineStats.accumulate_array
    rw [List.foldl_cons]
    exact accumulate_array_eq_foldl (os.accumulate y) rest

theorem sum_sq_expand (xs : List ℚ) (mu : ℚ) :
    (xs.map (fun x => (x - mu)^2)).sum =
      (xs.map (fun x => x^2)).sum - 2 * mu * xs.sum + (xs.length : ℚ) * mu^2 := by
  induction xs with
  | nil => simp
  | cons x rest ih =>
    simp only [List.map_cons, List.sum_cons, List.length_cons, ih]
    push_cast
    ring

theorem onlineStats_state (xs : List ℚ) :
    (xs.foldl OnlineStats.accumulate OnlineStats.init).c = xs.length ∧
    (xs.foldl OnlineStats.accumulate OnlineStats.init).m = xs.sum / (xs.length : ℚ) ∧
    (xs.foldl OnlineStats.accumulate OnlineStats.init).s =
      (xs.map (fun x => x^2)).sum - xs.sum^2 / (xs.length : ℚ) := by
  induction xs using List.reverseRecOn with
  | nil => exact ⟨rfl, by simp [OnlineStats.init], by simp [OnlineStats.init]⟩
  | append_singleton xs x ih =>
    obtain ⟨ihc, ihm, ihs⟩ := ih
    simp only [List.foldl_append, List.foldl_cons, List.foldl_nil, List.sum_append,
      List.sum_cons, List.sum_nil, List.map_append, List.map_cons, List.map_nil,
      List.length_append, List.length_cons, List.length_nil]
    rcases Nat.eq_zero_or_pos xs.length with hn | hn
    · have hxs : xs = [] := List.length_eq_zero.mp hn
      subst hxs
      norm_num [OnlineStats.accumulate, OnlineStats.init]
    · have hq : ((xs.length : ℚ)) ≠ 0 := by
        have h0 : (0 : ℚ) < (xs.length : ℚ) := by exact_mod_cast hn
        exact ne_of_gt h0
      have hq1 : ((xs.length : ℚ)) + 1 ≠ 0 := by positivity
      set prev := List.foldl OnlineStats.accumulate OnlineStats.init xs with hprev
      refine ⟨?_, ?_, ?_⟩
      · unfold OnlineStats.accumulate
        simp [ihc]
      · unfold OnlineStats.accumulate
        simp only [ihc, ihm]
        push_cast
        field_simp
        ring
      · unfold OnlineStats.accumulate
        simp only [ihc, ihm, ihs]
        push_cast
        field_simp
        ring

/-- Claim C7: for at least three accumulated values, the exact-arithmetic
OnlineStats reports mean = (sum of values) / n, variance(ddof) = (sum of
squared deviations from the mean) / (n - ddof), std(ddof) = sqrt of
variance(ddof); accumulate_array coincides with repeated accumulate, so any
mix of the two accumulates the concatenated value list. -/
theorem onlineStats_correct (xs : List ℚ) (ddof : ℤ) (hlen : 3 ≤ xs.length) :
    (xs.foldl OnlineStats.accumulate OnlineStats.init).mean = xs.sum / (xs.length : ℚ) ∧
    (xs.foldl OnlineStats.accumulate OnlineStats.init).variance ddof =
      (xs.map (fun x => (x - xs.sum / (xs.length : ℚ))^2)).sum /
        ((xs.length : ℚ) - (ddof : ℚ)) ∧
    (xs.foldl OnlineStats.accumulate OnlineStats.init).std ddof =
      Real.sqrt (((xs.foldl OnlineStats.accumulate OnlineStats.init).variance ddof : ℚ) : ℝ) ∧
    (∀ (os : OnlineStats) (ys : List ℚ),
      os.accumulate_array ys = ys.foldl OnlineStats.accumulate os) := by
  obtain ⟨hc, hm, hs⟩ := onlineStats_state xs
  have hq : ((xs.length : ℚ)) ≠ 0 := by
    have : (0 : ℕ) < xs.length := by omega
    have : (0 : ℚ) < (xs.length : ℚ) := by exact_mod_cast this
    exact ne_of_gt this
  refine ⟨hm, ?_, rfl, accumulate_array_eq_foldl⟩
  unfold OnlineStats.variance
  rw [hc, if_pos (by omega : 2 < xs.length), hs]
  congr 1
  rw [sum_sq_expand xs (xs.sum / (xs.length : ℚ))]
  field_simp
  ring

/-- Witness for C7 on the values [1, 2, 3]. -/
theorem onlineStats_correct_witness :
    (([1, 2, 3] : List ℚ).foldl OnlineStats.accumulate OnlineStats.init).mean =
      ([1, 2, 3] : List ℚ).sum / ((([1, 2, 3] : List ℚ).length : ℕ) : ℚ) :=
  (onlineStats_correct [1, 2, 3] 0 (by decide)).1

/-- Claim C9: with two or fewer accumulated values, variance(ddof) is exactly
0 and std(ddof) is exactly 0, for every ddof and regardless of the values
(the guard in the source is count > 2). -/
theorem onlineStats_small_count (xs : List ℚ) (hlen : xs.length ≤ 2) (ddof : ℤ) :
    (xs.foldl OnlineStats.accumulate OnlineStats.init).variance ddof = 0 ∧
    (xs.foldl OnlineStats.accumulate OnlineStats.init).std ddof = 0 := by
  obtain ⟨hc, -, -⟩ := onlineStats_state xs
  have hv : (xs.foldl OnlineStats.accumulate OnlineStats.init).variance ddof = 0 := by
    unfold OnlineStats.variance
    rw [hc, if_neg (by omega : ¬ 2 < xs.length)]
  refine ⟨hv, ?_⟩
  unfold OnlineStats.std
  rw [hv]
  simp

/-- Witness for C9 on the two distinct values [1, 5] with ddof = 1. -/
theorem onlineStats_small_count_witness :
    (([1, 5] : List ℚ).foldl OnlineStats.accumulate OnlineStats.init).variance 1 = 0 ∧
    (([1, 5] : List ℚ).foldl OnlineStats.accumulate OnlineStats.init).std 1 = 0 :=
  onlineStats_small_count [1, 5] (by decide) 1

/-! ### capacify -/

theorem capacify_go_map (capacitance resistance : ℚ) (iterations : ℕ) :
    ∀ (K : List SampleChunk) (vc q : ℚ),
      capacify_go capacitance resistance iterations false vc q K =
        K.map (capacifyChunk capacitance resistance iterations) := by
  intro K
  induction K with
  | nil => intro vc q; rfl
  | cons sc rest ih =>
    intro vc q
    unfold capacify_go capacifyChunk
    simp only [eq_self_iff_true, if_true, List.map_cons]
    rw [ih]
    rfl

/-- Claim C8: capacify carries no filter state across chunk boundaries.  The
vc_init guard is never set true, so capacitor voltage and charge are re-seeded
from the first sample of every chunk and capacify acts chunk-by-chunk: if two
streams have equal k-th chunks, the k-th output chunks are equal, regardless
of any earlier chunks. -/
theorem capacify_chunkwise (capacitance resistance : ℚ) (iterations : ℕ)
    (s1 s2 : List SampleChunk) (k : ℕ) (h : s1[k]? = s2[k]?) :
    (capacify s1 capacitance resistance iterations)[k]? =
      (capacify s2 capacitance resistance iterations)[k]? := by
  unfold capacify
  rw [capacify_go_map, capacify_go_map, List.getElem?_map, List.getElem?_map, h]

/-- Witness for C8: two streams differing in chunk 0 but equal in chunk 1
produce the same output chunk 1. -/
theorem capacify_chunkwise_witness :
    (capacify [⟨[1], 0, 1⟩, ⟨[2], 1, 1⟩] 1 1 1)[1]? =
      (capacify [⟨[3], 5, 1⟩, ⟨[2], 1, 1⟩] 1 1 1)[1]? :=
  capacify_chunkwise 1 1 1 [⟨[1], 0, 1⟩, ⟨[2], 1, 1⟩] [⟨[3], 5, 1⟩, ⟨[2], 1, 1⟩] 1 (by decide)
